import Mathlib

/-!
Verification of the levitate acoustic-levitation library core.

This file embeds, in Lean, the data model and the operations of the
`levitate` Python package (files `levitate/models.py` and
`levitate/arrays.py`): the single-transducer Green's function
`p0 * e^(i k r) / r * directivity`, its closed-form spherical derivatives
up to third order, the finite-difference directivity derivatives, the
product-rule combination into total spatial derivatives, the
mirror-source reflection decorator, the array aggregation, the
single-slot derivative cache, and the wavenumber / complex-amplitude
state handling.  Real-valued numpy quantities are modelled as real
numbers, complex arrays as complex numbers, and the Bessel functions
`j0`/`j1` (imported from scipy) as abstract function parameters.
-/

namespace Levitate

open Complex

/-- Three-dimensional vectors, as the numpy arrays of shape (3,) in the source. -/
abbrev Vec3 : Type := Fin 3 → ℝ

/-- Dot product of two 3-vectors, as `(a * b).sum(axis=-1)` in the source. -/
def dot3 (a b : Vec3) : ℝ := ∑ i, a i * b i

/-- The derivative dictionary keys used throughout `models.py`:
the empty key for the value itself, three first-order, six second-order
and nine third-order derivative labels. -/
inductive DKey : Type where
  | e | x | y | z
  | xx | yy | zz | xy | xz | yz
  | xxx | yyy | zzz | xxy | xxz | yyx | yyz | zzx | zzy
  deriving DecidableEq, Repr

/-- The order of the derivative a key denotes (the length of the
Python string key). -/
def DKey.order : DKey → ℕ
  | .e => 0
  | .x | .y | .z => 1
  | .xx | .yy | .zz | .xy | .xz | .yz => 2
  | _ => 3

/-- The multi-index of a key: how many times each of x, y, z is derived. -/
def DKey.count : DKey → ℕ × ℕ × ℕ
  | .e => (0, 0, 0)
  | .x => (1, 0, 0)
  | .y => (0, 1, 0)
  | .z => (0, 0, 1)
  | .xx => (2, 0, 0)
  | .yy => (0, 2, 0)
  | .zz => (0, 0, 2)
  | .xy => (1, 1, 0)
  | .xz => (1, 0, 1)
  | .yz => (0, 1, 1)
  | .xxx => (3, 0, 0)
  | .yyy => (0, 3, 0)
  | .zzz => (0, 0, 3)
  | .xxy => (2, 1, 0)
  | .xxz => (2, 0, 1)
  | .yyx => (1, 2, 0)
  | .yyz => (0, 2, 1)
  | .zzx => (1, 0, 2)
  | .zzy => (0, 1, 2)

/-! ## Wavenumber state (`TransducerModel.k/omega/freq/wavelength`) -/

/-- The state stored by `TransducerModel`: the wavenumber `_k` and the
angular frequency `_omega` (kept in sync by the property setters). -/
structure WavenumberState : Type where
  k : ℝ
  omega : ℝ

/-- The `k` property setter: stores the value and updates `_omega = k * c_air`. -/
def set_k (c v : ℝ) (_st : WavenumberState) : WavenumberState := ⟨v, v * c⟩

/-- The `omega` property setter: stores the value and updates `_k = omega / c_air`. -/
noncomputable def set_omega (c v : ℝ) (_st : WavenumberState) : WavenumberState := ⟨v / c, v⟩

/-- The `freq` property setter: `self.omega = value * 2 * np.pi`. -/
noncomputable def set_freq (c v : ℝ) (st : WavenumberState) : WavenumberState :=
  set_omega c (v * 2 * Real.pi) st

/-- The `wavelength` property setter: `self.k = 2 * np.pi / value`. -/
noncomputable def set_wavelength (c v : ℝ) (st : WavenumberState) : WavenumberState :=
  set_k c (2 * Real.pi / v) st

/-- The `freq` property getter: `self.omega / 2 / np.pi`. -/
noncomputable def get_freq (st : WavenumberState) : ℝ := st.omega / 2 / Real.pi

/-- The `wavelength` property getter: `2 * np.pi / self.k`. -/
noncomputable def get_wavelength (st : WavenumberState) : ℝ := 2 * Real.pi / st.k

/-- The mutual-consistency invariant of the four parameter views. -/
def WavenumberConsistent (c : ℝ) (st : WavenumberState) : Prop :=
  st.omega = st.k * c ∧ get_freq st = st.omega / (2 * Real.pi) ∧
    get_wavelength st = 2 * Real.pi / st.k

/-! ## Complex amplitude control state (`TransducerArray`) -/

/-- The per-element control state of a `TransducerArray`: the stored
phases and amplitudes.  There is no stored complex amplitude field. -/
structure ControlState (N : ℕ) : Type where
  amplitudes : Fin N → ℝ
  phases : Fin N → ℝ

/-- The `complex_amplitudes` getter:
`self.amplitudes * np.exp(1j * self.phases)`, recomputed from the
stored phases and amplitudes on every read. -/
noncomputable def complex_amplitudes {N : ℕ} (st : ControlState N) : Fin N → ℂ :=
  fun i => (st.amplitudes i : ℂ) * Complex.exp (Complex.I * st.phases i)

/-- The `complex_amplitudes` setter: decomposes the given complex values
into `np.abs(value)` and `np.angle(value)`. -/
noncomputable def set_complex_amplitudes {N : ℕ} (v : Fin N → ℂ)
    (_st : ControlState N) : ControlState N :=
  ⟨fun i => Complex.abs (v i), fun i => Complex.arg (v i)⟩

/-! ## Single-slot derivative cache (`TransducerArray.PersistentFieldEvaluator`) -/

/-- The cache state of `PersistentFieldEvaluator`: the last receiver
positions, the last computed derivative tensor, and the orders it was
computed for (initialised to -1). -/
structure PersistentFieldEvaluator (P T : Type) : Type where
  last_positions : Option P
  stored_derivatives : Option T
  existing_orders : Int

/-- The state after `__init__`. -/
def PersistentFieldEvaluator.init (P T : Type) : PersistentFieldEvaluator P T :=
  ⟨none, none, -1⟩

/-- One call of `PersistentFieldEvaluator.spatial_derivatives`:
returns the cached tensor when one is stored for at least the requested
orders at shape-equal, numerically close positions, and otherwise
recomputes through the array and fills the single cache slot.
`shape_eq` and `close` model `positions.shape == last.shape` and
`np.allclose(positions, last)`; `compute` models
`TransducerArray.spatial_derivatives`. -/
def PersistentFieldEvaluator.call {P T : Type} (shape_eq close : P → P → Bool)
    (compute : P → ℕ → T) (st : PersistentFieldEvaluator P T)
    (positions : P) (orders : ℕ) : T × PersistentFieldEvaluator P T :=
  match st.stored_derivatives, st.last_positions with
  | some t, some lp =>
    if (orders : Int) ≤ st.existing_orders ∧ shape_eq positions lp ∧ close positions lp then
      (t, st)
    else
      (compute positions orders, ⟨some positions, some (compute positions orders), (orders : Int)⟩)
  | _, _ =>
      (compute positions orders, ⟨some positions, some (compute positions orders), (orders : Int)⟩)

/-! ## Plane reflection (`ReflectingTransducer`) -/

/-- The mirror-image source position used by `ReflectingTransducer`:
`source_position - 2 * plane_normal * ((source_position * plane_normal).sum() - plane_distance)`. -/
def mirror_position (plane_normal : Vec3) (plane_distance : ℝ) (source_position : Vec3) : Vec3 :=
  fun i => source_position i - 2 * plane_normal i * (dot3 source_position plane_normal - plane_distance)

/-- The mirror-image source normal used by `ReflectingTransducer`:
`source_normal - 2 * plane_normal * (source_normal * plane_normal).sum()`. -/
def mirror_normal (plane_normal : Vec3) (source_normal : Vec3) : Vec3 :=
  fun i => source_normal i - 2 * plane_normal i * dot3 source_normal plane_normal

/-- `ReflectingTransducer.greens_function`: the direct field plus the
reflection coefficient times the field of the mirror source. -/
def reflecting_greens_function (base : Vec3 → Vec3 → Vec3 → ℂ)
    (plane_normal : Vec3) (plane_distance : ℝ) (reflection_coefficient : ℂ)
    (source_position source_normal receiver_position : Vec3) : ℂ :=
  base source_position source_normal receiver_position +
    reflection_coefficient *
      base (mirror_position plane_normal plane_distance source_position)
        (mirror_normal plane_normal source_normal) receiver_position

/-- `ReflectingTransducer.spatial_derivatives`: every entry is the direct
entry plus the reflection coefficient times the mirror-source entry. -/
def reflecting_spatial_derivatives (base : Vec3 → Vec3 → Vec3 → DKey → ℂ)
    (plane_normal : Vec3) (plane_distance : ℝ) (reflection_coefficient : ℂ)
    (source_position source_normal receiver_position : Vec3) : DKey → ℂ :=
  fun key =>
    base source_position source_normal receiver_position key +
      reflection_coefficient *
        base (mirror_position plane_normal plane_distance source_position)
          (mirror_normal plane_normal source_normal) receiver_position key

/-! ## Spherical wave and its closed-form derivatives (`TransducerModel`) -/

/-- The source-receiver distance `r = np.sum(diff**2, axis=-1)**0.5`. -/
noncomputable def rdist (source_position receiver_position : Vec3) : ℝ :=
  Real.sqrt (∑ i, (receiver_position i - source_position i) ^ 2)

/-- The spherical spreading value as a function of the distance:
`e^(i k r) / r`. -/
noncomputable def radial0 (k r : ℝ) : ℂ :=
  Complex.exp (Complex.I * ((k * r : ℝ) : ℂ)) / ((r : ℝ) : ℂ)

/-- The first-order radial coefficient of the spherical wave:
`(i k r - 1) e^(i k r) / r^3` (the `coeff` of the first-order block
of `spherical_derivatives`). -/
noncomputable def radial1 (k r : ℝ) : ℂ :=
  (Complex.I * ((k * r : ℝ) : ℂ) - 1) * Complex.exp (Complex.I * ((k * r : ℝ) : ℂ)) /
    ((r : ℝ) : ℂ) ^ 3

/-- The second-order radial coefficient of the spherical wave:
`(3 - k^2 r^2 - 3 i k r) e^(i k r) / r^5` (the `coeff` of the
second-order block of `spherical_derivatives`). -/
noncomputable def radial2 (k r : ℝ) : ℂ :=
  (3 - ((k * r : ℝ) : ℂ) ^ 2 - 3 * (Complex.I * ((k * r : ℝ) : ℂ))) *
    Complex.exp (Complex.I * ((k * r : ℝ) : ℂ)) / ((r : ℝ) : ℂ) ^ 5

/-- The third-order radial coefficient of the spherical wave:
`((i k r - 1) (15 - k^2 r^2) + 5 k^2 r^2) e^(i k r) / r^7` (the `coeff`
of the third-order block of `spherical_derivatives`). -/
noncomputable def radial3 (k r : ℝ) : ℂ :=
  ((Complex.I * ((k * r : ℝ) : ℂ) - 1) * (15 - ((k * r : ℝ) : ℂ) ^ 2) +
      5 * ((k * r : ℝ) : ℂ) ^ 2) *
    Complex.exp (Complex.I * ((k * r : ℝ) : ℂ)) / ((r : ℝ) : ℂ) ^ 7

/-- The receiver-source offset component, as a complex number. -/
noncomputable def diffc (source_position receiver_position : Vec3) (i : Fin 3) : ℂ :=
  ((receiver_position i - source_position i : ℝ) : ℂ)

/-- `TransducerModel.spherical_derivatives`: the closed-form partial
derivatives of `e^(i k r) / r` up to third order, translated line by
line from the source (`diff`, `r`, `kr`, `jkr`, `phase` and the
per-order `coeff`/`const` locals). -/
noncomputable def spherical_derivatives (k : ℝ)
    (source_position receiver_position : Vec3) : DKey → ℂ :=
  fun key =>
  let diff := diffc source_position receiver_position
  let r := rdist source_position receiver_position
  let jkr : ℂ := Complex.I * ((k * r : ℝ) : ℂ)
  let phase : ℂ := Complex.exp jkr
  let coeff1 : ℂ := (jkr - 1) * phase / ((r : ℝ) : ℂ) ^ 3
  let coeff2 : ℂ := (3 - ((k * r : ℝ) : ℂ) ^ 2 - 3 * jkr) * phase / ((r : ℝ) : ℂ) ^ 5
  let coeff3 : ℂ :=
    ((jkr - 1) * (15 - ((k * r : ℝ) : ℂ) ^ 2) + 5 * ((k * r : ℝ) : ℂ) ^ 2) * phase /
      ((r : ℝ) : ℂ) ^ 7
  match key with
  | .e => phase / ((r : ℝ) : ℂ)
  | .x => diff 0 * coeff1
  | .y => diff 1 * coeff1
  | .z => diff 2 * coeff1
  | .xx => diff 0 ^ 2 * coeff2 + coeff1
  | .yy => diff 1 ^ 2 * coeff2 + coeff1
  | .zz => diff 2 ^ 2 * coeff2 + coeff1
  | .xy => diff 0 * diff 1 * coeff2
  | .xz => diff 0 * diff 2 * coeff2
  | .yz => diff 1 * diff 2 * coeff2
  | .xxx => diff 0 * (3 * coeff2 + diff 0 ^ 2 * coeff3)
  | .yyy => diff 1 * (3 * coeff2 + diff 1 ^ 2 * coeff3)
  | .zzz => diff 2 * (3 * coeff2 + diff 2 ^ 2 * coeff3)
  | .xxy => diff 1 * (coeff2 + diff 0 ^ 2 * coeff3)
  | .xxz => diff 2 * (coeff2 + diff 0 ^ 2 * coeff3)
  | .yyx => diff 0 * (coeff2 + diff 1 ^ 2 * coeff3)
  | .yyz => diff 2 * (coeff2 + diff 1 ^ 2 * coeff3)
  | .zzx => diff 0 * (coeff2 + diff 2 ^ 2 * coeff3)
  | .zzy => diff 1 * (coeff2 + diff 2 ^ 2 * coeff3)

/-- `TransducerModel.spherical_spreading`: `e^(i k r) / r`. -/
noncomputable def spherical_spreading (k : ℝ)
    (source_position receiver_position : Vec3) : ℂ :=
  Complex.exp (Complex.I * ((k * rdist source_position receiver_position : ℝ) : ℂ)) /
    ((rdist source_position receiver_position : ℝ) : ℂ)

/-- `TransducerModel.greens_function`:
`p0 * spherical_spreading * directivity`, for a model with directivity
function `direct`. -/
noncomputable def greens_function (p0 k : ℝ) (direct : Vec3 → Vec3 → Vec3 → ℝ)
    (source_position source_normal receiver_position : Vec3) : ℂ :=
  (p0 : ℂ) * spherical_spreading k source_position receiver_position *
    ((direct source_position source_normal receiver_position : ℝ) : ℂ)

/-- `TransducerModel.directivity` of the base (point source) model:
identically one. -/
def base_directivity (_source_position _source_normal _receiver_position : Vec3) : ℝ := 1

/-! ## Finite-difference directivity derivatives (`TransducerModel.directivity_derivatives`) -/

/-- The finite-difference stencil table of
`TransducerModel.directivity_derivatives`: for each derivative key the
list of (shift, weight) pairs, translated from the source (the primary
coefficients, not the commented-out alternatives). -/
noncomputable def fd_stencil : DKey → List (Vec3 × ℝ)
  | .e => [(![0, 0, 0], 1)]
  | .x => [(![1, 0, 0], 0.5), (![-1, 0, 0], -0.5)]
  | .y => [(![0, 1, 0], 0.5), (![0, -1, 0], -0.5)]
  | .z => [(![0, 0, 1], 0.5), (![0, 0, -1], -0.5)]
  | .xx => [(![1, 0, 0], 1), (![0, 0, 0], -2), (![-1, 0, 0], 1)]
  | .yy => [(![0, 1, 0], 1), (![0, 0, 0], -2), (![0, -1, 0], 1)]
  | .zz => [(![0, 0, 1], 1), (![0, 0, 0], -2), (![0, 0, -1], 1)]
  | .xy => [(![1, 1, 0], 0.25), (![-1, -1, 0], 0.25), (![1, -1, 0], -0.25), (![-1, 1, 0], -0.25)]
  | .xz => [(![1, 0, 1], 0.25), (![-1, 0, -1], 0.25), (![1, 0, -1], -0.25), (![-1, 0, 1], -0.25)]
  | .yz => [(![0, 1, 1], 0.25), (![0, -1, -1], 0.25), (![0, -1, 1], -0.25), (![0, 1, -1], -0.25)]
  | .xxx => [(![2, 0, 0], 0.5), (![-2, 0, 0], -0.5), (![1, 0, 0], -1), (![-1, 0, 0], 1)]
  | .yyy => [(![0, 2, 0], 0.5), (![0, -2, 0], -0.5), (![0, 1, 0], -1), (![0, -1, 0], 1)]
  | .zzz => [(![0, 0, 2], 0.5), (![0, 0, -2], -0.5), (![0, 0, 1], -1), (![0, 0, -1], 1)]
  | .xxy => [(![1, 1, 0], 0.5), (![-1, -1, 0], -0.5), (![1, -1, 0], -0.5), (![-1, 1, 0], 0.5),
             (![0, 1, 0], -1), (![0, -1, 0], 1)]
  | .xxz => [(![1, 0, 1], 0.5), (![-1, 0, -1], -0.5), (![1, 0, -1], -0.5), (![-1, 0, 1], 0.5),
             (![0, 0, 1], -1), (![0, 0, -1], 1)]
  | .yyx => [(![1, 1, 0], 0.5), (![-1, -1, 0], -0.5), (![-1, 1, 0], -0.5), (![1, -1, 0], 0.5),
             (![1, 0, 0], -1), (![-1, 0, 0], 1)]
  | .yyz => [(![0, 1, 1], 0.5), (![0, -1, -1], -0.5), (![0, 1, -1], -0.5), (![0, -1, 1], 0.5),
             (![0, 0, 1], -1), (![0, 0, -1], 1)]
  | .zzx => [(![1, 0, 1], 0.5), (![-1, 0, -1], -0.5), (![-1, 0, 1], -0.5), (![1, 0, -1], 0.5),
             (![1, 0, 0], -1), (![-1, 0, 0], 1)]
  | .zzy => [(![0, 1, 1], 0.5), (![0, -1, -1], -0.5), (![0, -1, 1], -0.5), (![0, 1, -1], 0.5),
             (![0, 1, 0], -1), (![0, -1, 0], 1)]

/-- `TransducerModel.directivity_derivatives`: the central
finite-difference evaluation of the directivity function `direct` with
step `h = 1 / k`, as
`np.sum(directivity(shifts * h + receiver) * weights) / h**len(key)`. -/
noncomputable def directivity_derivatives (direct : Vec3 → Vec3 → Vec3 → ℝ) (k : ℝ)
    (source_position source_normal receiver_position : Vec3) (key : DKey) : ℝ :=
  let h := 1 / k
  (((fd_stencil key).map (fun sw =>
      direct source_position source_normal (fun i => sw.1 i * h + receiver_position i) *
        sw.2)).sum) / h ^ key.order

/-! ## Product-rule combination (`TransducerModel.spatial_derivatives`) -/

/-- `TransducerModel.spatial_derivatives`: the order-by-order
product-rule combination of the spherical derivatives `sph` and the
directivity derivatives `dir`, each entry finally scaled by the
reference pressure `p0`, translated line by line from the source. -/
noncomputable def spatial_derivatives_combine (p0 : ℝ) (sph dir : DKey → ℂ) : DKey → ℂ
  | .e => sph .e * dir .e * p0
  | .x => (sph .e * dir .x + dir .e * sph .x) * p0
  | .y => (sph .e * dir .y + dir .e * sph .y) * p0
  | .z => (sph .e * dir .z + dir .e * sph .z) * p0
  | .xx => (sph .e * dir .xx + dir .e * sph .xx + 2 * dir .x * sph .x) * p0
  | .yy => (sph .e * dir .yy + dir .e * sph .yy + 2 * dir .y * sph .y) * p0
  | .zz => (sph .e * dir .zz + dir .e * sph .zz + 2 * dir .z * sph .z) * p0
  | .xy => (sph .e * dir .xy + dir .e * sph .xy + sph .x * dir .y + dir .x * sph .y) * p0
  | .xz => (sph .e * dir .xz + dir .e * sph .xz + sph .x * dir .z + dir .x * sph .z) * p0
  | .yz => (sph .e * dir .yz + dir .e * sph .yz + sph .y * dir .z + dir .y * sph .z) * p0
  | .xxx => (sph .e * dir .xxx + dir .e * sph .xxx +
      3 * (dir .xx * sph .x + sph .xx * dir .x)) * p0
  | .yyy => (sph .e * dir .yyy + dir .e * sph .yyy +
      3 * (dir .yy * sph .y + sph .yy * dir .y)) * p0
  | .zzz => (sph .e * dir .zzz + dir .e * sph .zzz +
      3 * (dir .zz * sph .z + sph .zz * dir .z)) * p0
  | .xxy => (sph .e * dir .xxy + dir .e * sph .xxy + sph .y * dir .xx + dir .y * sph .xx +
      2 * (sph .x * dir .xy + dir .x * sph .xy)) * p0
  | .xxz => (sph .e * dir .xxz + dir .e * sph .xxz + sph .z * dir .xx + dir .z * sph .xx +
      2 * (sph .x * dir .xz + dir .x * sph .xz)) * p0
  | .yyx => (sph .e * dir .yyx + dir .e * sph .yyx + sph .x * dir .yy + dir .x * sph .yy +
      2 * (sph .y * dir .xy + dir .y * sph .xy)) * p0
  | .yyz => (sph .e * dir .yyz + dir .e * sph .yyz + sph .z * dir .yy + dir .z * sph .yy +
      2 * (sph .y * dir .yz + dir .y * sph .yz)) * p0
  | .zzx => (sph .e * dir .zzx + dir .e * sph .zzx + sph .x * dir .zz + dir .x * sph .zz +
      2 * (sph .z * dir .xz + dir .z * sph .xz)) * p0
  | .zzy => (sph .e * dir .zzy + dir .e * sph .zzy + sph .y * dir .zz + dir .y * sph .zz +
      2 * (sph .z * dir .yz + dir .z * sph .yz)) * p0

/-- The general Leibniz (product-rule) expansion of a mixed partial
derivative of a product, expressed on multi-indices: the entry of
multi-index `(a, b, c)` is the binomially weighted sum over all ways to
split the derivatives between the two factors. -/
noncomputable def leibniz_expansion (sph dir : ℕ × ℕ × ℕ → ℂ) (m : ℕ × ℕ × ℕ) : ℂ :=
  ∑ i ∈ Finset.range (m.1 + 1), ∑ j ∈ Finset.range (m.2.1 + 1),
    ∑ l ∈ Finset.range (m.2.2 + 1),
      ((Nat.choose m.1 i * Nat.choose m.2.1 j * Nat.choose m.2.2 l : ℕ) : ℂ) *
        sph (i, j, l) * dir (m.1 - i, m.2.1 - j, m.2.2 - l)

/-! ## Array aggregation (`TransducerArray.spatial_derivatives`) -/

/-- The geometry and control state of a `TransducerArray` with `N`
elements. -/
structure TransducerArrayState (N : ℕ) : Type where
  transducer_positions : Fin N → Vec3
  transducer_normals : Fin N → Vec3
  amplitudes : Fin N → ℝ
  phases : Fin N → ℝ

/-- `TransducerArray.spatial_derivatives` (arrays.py): stacks the
per-transducer results of the model's `spatial_derivatives` into an
array indexed `[derivative key, transducer, receiver point]`, reading
only the array geometry (no amplitude or phase weighting).  `Q` indexes
the batch of receiver points, and `model_sd` is the per-element
`TransducerModel.spatial_derivatives`. -/
def array_spatial_derivatives {N : ℕ} {Q : Type}
    (model_sd : Vec3 → Vec3 → Vec3 → DKey → ℂ) (arr : TransducerArrayState N)
    (receiver_positions : Q → Vec3) : DKey → Fin N → Q → ℂ :=
  fun key idx q =>
    model_sd (arr.transducer_positions idx) (arr.transducer_normals idx)
      (receiver_positions q) key

/-! ## Circular piston and circular ring directivities -/

/-- The sine of the angle between the transducer normal and the
source-receiver line, as computed in `CircularPiston.directivity` and
`CircularRing.directivity_derivatives`:
`cos = dot / r / norm`, `sin = (1 - cos^2)**0.5`. -/
noncomputable def sin_angle (source_normal source_position receiver_position : Vec3) : ℝ :=
  let diff := fun i : Fin 3 => receiver_position i - source_position i
  let dots := ∑ i, diff i * source_normal i
  let norm1 := Real.sqrt (∑ i, source_normal i ^ 2)
  let norm2 := Real.sqrt (∑ i, diff i * diff i)
  Real.sqrt (1 - (dots / norm2 / norm1) ^ 2)

/-- `CircularPiston.directivity`:
`np.where(denom == 0, 1, 2 * j1(denom) / denom)` with
`denom = k * a * sin_angle`. -/
noncomputable def circular_piston_directivity (j1 : ℝ → ℝ) (k a : ℝ)
    (source_position source_normal receiver_position : Vec3) : ℝ :=
  let denom := k * a * sin_angle source_normal source_position receiver_position
  if denom = 0 then 1 else 2 * j1 denom / denom

/-- The guarded Bessel ratio `J1(ka sin) / (ka sin)` of
`CircularRing.directivity_derivatives`:
`np.where(sin == 0, 0.5, j1(ka_sin) / ka_sin)`. -/
noncomputable def ring_J1_ratio (j1 : ℝ → ℝ) (ka sin : ℝ) : ℝ :=
  if sin = 0 then 0.5 else j1 (ka * sin) / (ka * sin)

/-- The guarded second Bessel ratio of
`CircularRing.directivity_derivatives`:
`np.where(sin == 0, 0.125, (2 * J1_xi - J0) / ka_sin**2)`. -/
noncomputable def ring_J2_ratio (j0 j1 : ℝ → ℝ) (ka sin : ℝ) : ℝ :=
  if sin = 0 then 0.125
  else (2 * ring_J1_ratio j1 ka sin - j0 (ka * sin)) / (ka * sin) ^ 2

/-- The guarded third Bessel ratio of
`CircularRing.directivity_derivatives`:
`np.where(sin == 0, 1 / 48, (4 * J2_xi2 - J1_xi) / ka_sin**2)`. -/
noncomputable def ring_J3_ratio (j0 j1 : ℝ → ℝ) (ka sin : ℝ) : ℝ :=
  if sin = 0 then 1 / 48
  else (4 * ring_J2_ratio j0 j1 ka sin - ring_J1_ratio j1 ka sin) / (ka * sin) ^ 2

/-- `CircularRing.directivity_derivatives`: the closed-form angular
derivatives built from the chain rule on `cos` and the guarded Bessel
ratios, translated line by line from the source. -/
noncomputable def ring_directivity_derivatives (j0 j1 : ℝ → ℝ) (k a : ℝ)
    (source_position source_normal receiver_position : Vec3) : DKey → ℝ :=
  fun key =>
  let diff := fun i : Fin 3 => receiver_position i - source_position i
  let dot := ∑ i, diff i * source_normal i
  let r := Real.sqrt (∑ i, diff i ^ 2)
  let n := source_normal
  let norm := Real.sqrt (∑ i, n i ^ 2)
  let cos := dot / r / norm
  let sin := Real.sqrt (1 - cos ^ 2)
  let ka := k * a
  let J0 := j0 (ka * sin)
  let r2 := r ^ 2
  let r3 := r ^ 3
  let r5 := r2 * r3
  let r4 := r2 ^ 2
  let r7 := r5 * r2
  let cos_dx := (r2 * n 0 - diff 0 * dot) / r3 / norm
  let cos_dy := (r2 * n 1 - diff 1 * dot) / r3 / norm
  let cos_dz := (r2 * n 2 - diff 2 * dot) / r3 / norm
  let first_order_const := ring_J1_ratio j1 ka sin * ka ^ 2 * cos
  let cos_dx2 := (3 * diff 0 ^ 2 * dot - 2 * diff 0 * n 0 * r2 - dot * r2) / r5 / norm
  let cos_dy2 := (3 * diff 1 ^ 2 * dot - 2 * diff 1 * n 1 * r2 - dot * r2) / r5 / norm
  let cos_dz2 := (3 * diff 2 ^ 2 * dot - 2 * diff 2 * n 2 * r2 - dot * r2) / r5 / norm
  let cos_dxdy := (3 * diff 0 * diff 1 * dot - r2 * (n 0 * diff 1 + n 1 * diff 0)) / r5 / norm
  let cos_dxdz := (3 * diff 0 * diff 2 * dot - r2 * (n 0 * diff 2 + n 2 * diff 0)) / r5 / norm
  let cos_dydz := (3 * diff 1 * diff 2 * dot - r2 * (n 1 * diff 2 + n 2 * diff 1)) / r5 / norm
  let second_order_const :=
    ring_J2_ratio j0 j1 ka sin * ka ^ 4 * cos ^ 2 + ring_J1_ratio j1 ka sin * ka ^ 2
  let cos_dx3 := (-15 * diff 0 ^ 3 * dot + 9 * r2 * (diff 0 ^ 2 * n 0 + diff 0 * dot)
      - 3 * r4 * n 0) / r7 / norm
  let cos_dy3 := (-15 * diff 1 ^ 3 * dot + 9 * r2 * (diff 1 ^ 2 * n 1 + diff 1 * dot)
      - 3 * r4 * n 1) / r7 / norm
  let cos_dz3 := (-15 * diff 2 ^ 3 * dot + 9 * r2 * (diff 2 ^ 2 * n 2 + diff 2 * dot)
      - 3 * r4 * n 2) / r7 / norm
  let cos_dx2dy := (-15 * diff 0 ^ 2 * diff 1 * dot + 3 * r2 *
      (diff 0 ^ 2 * n 1 + 2 * diff 0 * diff 1 * n 0 + diff 1 * dot) - r4 * n 1) / r7 / norm
  let cos_dx2dz := (-15 * diff 0 ^ 2 * diff 2 * dot + 3 * r2 *
      (diff 0 ^ 2 * n 2 + 2 * diff 0 * diff 2 * n 0 + diff 2 * dot) - r4 * n 2) / r7 / norm
  let cos_dy2dx := (-15 * diff 1 ^ 2 * diff 0 * dot + 3 * r2 *
      (diff 1 ^ 2 * n 0 + 2 * diff 1 * diff 0 * n 1 + diff 0 * dot) - r4 * n 0) / r7 / norm
  let cos_dy2dz := (-15 * diff 1 ^ 2 * diff 2 * dot + 3 * r2 *
      (diff 1 ^ 2 * n 2 + 2 * diff 1 * diff 2 * n 1 + diff 2 * dot) - r4 * n 2) / r7 / norm
  let cos_dz2dx := (-15 * diff 2 ^ 2 * diff 0 * dot + 3 * r2 *
      (diff 2 ^ 2 * n 0 + 2 * diff 2 * diff 0 * n 2 + diff 0 * dot) - r4 * n 0) / r7 / norm
  let cos_dz2dy := (-15 * diff 2 ^ 2 * diff 1 * dot + 3 * r2 *
      (diff 2 ^ 2 * n 1 + 2 * diff 2 * diff 1 * n 2 + diff 1 * dot) - r4 * n 1) / r7 / norm
  let third_order_const :=
    ring_J3_ratio j0 j1 ka sin * ka ^ 6 * cos ^ 3 + 3 * ring_J2_ratio j0 j1 ka sin * ka ^ 4 * cos
  match key with
  | .e => J0
  | .x => first_order_const * cos_dx
  | .y => first_order_const * cos_dy
  | .z => first_order_const * cos_dz
  | .xx => second_order_const * cos_dx ^ 2 + first_order_const * cos_dx2
  | .yy => second_order_const * cos_dy ^ 2 + first_order_const * cos_dy2
  | .zz => second_order_const * cos_dz ^ 2 + first_order_const * cos_dz2
  | .xy => second_order_const * cos_dx * cos_dy + first_order_const * cos_dxdy
  | .xz => second_order_const * cos_dx * cos_dz + first_order_const * cos_dxdz
  | .yz => second_order_const * cos_dy * cos_dz + first_order_const * cos_dydz
  | .xxx => third_order_const * cos_dx ^ 3 + 3 * second_order_const * cos_dx2 * cos_dx +
      first_order_const * cos_dx3
  | .yyy => third_order_const * cos_dy ^ 3 + 3 * second_order_const * cos_dy2 * cos_dy +
      first_order_const * cos_dy3
  | .zzz => third_order_const * cos_dz ^ 3 + 3 * second_order_const * cos_dz2 * cos_dz +
      first_order_const * cos_dz3
  | .xxy => third_order_const * cos_dx ^ 2 * cos_dy +
      second_order_const * (cos_dx2 * cos_dy + 2 * cos_dxdy * cos_dx) +
      first_order_const * cos_dx2dy
  | .xxz => third_order_const * cos_dx ^ 2 * cos_dz +
      second_order_const * (cos_dx2 * cos_dz + 2 * cos_dxdz * cos_dx) +
      first_order_const * cos_dx2dz
  | .yyx => third_order_const * cos_dy ^ 2 * cos_dx +
      second_order_const * (cos_dy2 * cos_dx + 2 * cos_dxdy * cos_dy) +
      first_order_const * cos_dy2dx
  | .yyz => third_order_const * cos_dy ^ 2 * cos_dz +
      second_order_const * (cos_dy2 * cos_dz + 2 * cos_dydz * cos_dy) +
      first_order_const * cos_dy2dz
  | .zzx => third_order_const * cos_dz ^ 2 * cos_dx +
      second_order_const * (cos_dz2 * cos_dx + 2 * cos_dxdz * cos_dz) +
      first_order_const * cos_dz2dx
  | .zzy => third_order_const * cos_dz ^ 2 * cos_dy +
      second_order_const * (cos_dz2 * cos_dy + 2 * cos_dydz * cos_dz) +
      first_order_const * cos_dz2dy

/-! ## True partial derivatives of the spherical wave -/

/-- The mathematical spherical wave `G(p) = e^(i k |p - s|) / |p - s|`
whose partial derivatives `spherical_derivatives` claims to return. -/
noncomputable def sphG (k : ℝ) (source_position : Vec3) (receiver_position : Vec3) : ℂ :=
  radial0 k (rdist source_position receiver_position)

/-- The partial derivative of a complex-valued field along coordinate `i`,
as the one-variable derivative along the corresponding axis line. -/
noncomputable def pd (i : Fin 3) (f : Vec3 → ℂ) (p : Vec3) : ℂ :=
  deriv (fun t => f (Function.update p i t)) (p i)

/-- Iterated partial derivatives for a multi-index given as a list of
coordinates. -/
noncomputable def pdIter : List (Fin 3) → (Vec3 → ℂ) → Vec3 → ℂ
  | [], f => f
  | i :: rest, f => pd i (pdIter rest f)

/-- The coordinate list of each derivative key (the multi-index spelled
out, outermost derivative first). -/
def DKey.idxList : DKey → List (Fin 3)
  | .e => []
  | .x => [0]
  | .y => [1]
  | .z => [2]
  | .xx => [0, 0]
  | .yy => [1, 1]
  | .zz => [2, 2]
  | .xy => [0, 1]
  | .xz => [0, 2]
  | .yz => [1, 2]
  | .xxx => [0, 0, 0]
  | .yyy => [1, 1, 1]
  | .zzz => [2, 2, 2]
  | .xxy => [0, 0, 1]
  | .xxz => [0, 0, 2]
  | .yyx => [1, 1, 0]
  | .yyz => [1, 1, 2]
  | .zzx => [2, 2, 0]
  | .zzy => [2, 2, 1]

/-- The closed form of the first partial derivative of the spherical
wave along coordinate `j`. -/
noncomputable def sphF1 (k : ℝ) (s : Vec3) (j : Fin 3) (p : Vec3) : ℂ :=
  diffc s p j * radial1 k (rdist s p)

/-- The closed form of the second partial derivative of the spherical
wave along coordinates `i` and `j`. -/
noncomputable def sphF2 (k : ℝ) (s : Vec3) (i j : Fin 3) (p : Vec3) : ℂ :=
  diffc s p i * diffc s p j * radial2 k (rdist s p) +
    (if i = j then radial1 k (rdist s p) else 0)

/-- The closed form of the third partial derivative of the spherical
wave along coordinates `i`, `j` and `l`. -/
noncomputable def sphF3 (k : ℝ) (s : Vec3) (i j l : Fin 3) (p : Vec3) : ℂ :=
  diffc s p i * diffc s p j * diffc s p l * radial3 k (rdist s p) +
    ((if i = j then diffc s p l else 0) + (if i = l then diffc s p j else 0) +
      (if j = l then diffc s p i else 0)) * radial2 k (rdist s p)

/-! ## Concrete inputs used by the witnesses -/

/-- The origin. -/
def wOrigin : Vec3 := fun _ => 0

/-- The unit vector along the third coordinate. -/
def wUnitZ : Vec3 := fun i => if i = 2 then 1 else 0

/-! ## Theorems -/

/-- Expanding the mirror map inside the dot product with the plane normal. -/
theorem dot3_mirror_expand (n a : Vec3) (K : ℝ) :
    dot3 (fun i => a i - 2 * n i * K) n = dot3 a n - 2 * K * dot3 n n := by
  simp only [dot3, sub_mul]
  rw [Finset.sum_sub_distrib]
  congr 1
  rw [Finset.mul_sum]
  exact Finset.sum_congr rfl fun i _ => by ring

/-- C7: setting any one of `k`, `omega`, `freq` or `wavelength` to a
positive value leaves the four property views mutually consistent
(`omega = k c`, `freq = omega / 2π`, `wavelength = 2π / k`); in
particular setting the frequency to `v` makes the wavelength read
`c / v`, and setting the wavelength to `v` makes the wavenumber read
`2π / v`. -/
theorem wavenumber_views_consistent (c v : ℝ) (st : WavenumberState)
    (hc : 0 < c) (hv : 0 < v) :
    WavenumberConsistent c (set_k c v st) ∧
    WavenumberConsistent c (set_omega c v st) ∧
    WavenumberConsistent c (set_freq c v st) ∧
    WavenumberConsistent c (set_wavelength c v st) ∧
    get_wavelength (set_freq c v st) = c / v ∧
    (set_wavelength c v st).k = 2 * Real.pi / v := by
  have hc0 : c ≠ 0 := ne_of_gt hc
  have hv0 : v ≠ 0 := ne_of_gt hv
  have hpi : Real.pi ≠ 0 := Real.pi_ne_zero
  refine ⟨⟨rfl, div_div _ _ _, rfl⟩, ⟨?_, div_div _ _ _, rfl⟩, ⟨?_, div_div _ _ _, rfl⟩,
      ⟨rfl, div_div _ _ _, rfl⟩, ?_, rfl⟩
  · show v = v / c * c
    field_simp
  · show v * 2 * Real.pi = v * 2 * Real.pi / c * c
    field_simp
  · simp only [get_wavelength]
    have hk : (set_freq c v st).k = v * 2 * Real.pi / c := rfl
    rw [hk]
    field_simp
    ring

/-- C7 witness: a concrete instantiation with `c = 343`, `v = 1`. -/
theorem wavenumber_views_consistent_witness :
    (0 : ℝ) < 343 ∧ (0 : ℝ) < 1 ∧
      get_wavelength (set_freq 343 1 ⟨1, 343⟩) = 343 / 1 :=
  ⟨by norm_num, by norm_num,
    (wavenumber_views_consistent 343 1 ⟨1, 343⟩ (by norm_num) (by norm_num)).2.2.2.2.1⟩

/-- C8: writing `a * e^(i φ)` through the `complex_amplitudes` setter and
reading the property back reproduces the same complex values exactly, for
any amplitudes `a ≥ 0` and phases in `(-π, π]`; and the getter always
recomputes `amplitudes * e^(i phases)` from the stored state. -/
theorem complex_amplitudes_roundtrip {N : ℕ} (a φ : Fin N → ℝ) (st : ControlState N)
    (ha : ∀ i, 0 ≤ a i) (hφ : ∀ i, φ i ∈ Set.Ioc (-Real.pi) Real.pi) :
    complex_amplitudes (set_complex_amplitudes
        (fun i => (a i : ℂ) * Complex.exp (Complex.I * φ i)) st) =
      (fun i => (a i : ℂ) * Complex.exp (Complex.I * φ i)) ∧
    ∀ st' : ControlState N, complex_amplitudes st' =
      fun i => (st'.amplitudes i : ℂ) * Complex.exp (Complex.I * st'.phases i) := by
  have key : ∀ z : ℂ, ((Complex.abs z : ℝ) : ℂ) * Complex.exp (Complex.I * Complex.arg z) = z := by
    intro z
    rw [mul_comm Complex.I]
    exact Complex.abs_mul_exp_arg_mul_I z
  exact ⟨funext fun i => key _, fun st' => rfl⟩

/-- C8 witness: a one-element array with amplitude 1 and phase 0. -/
theorem complex_amplitudes_roundtrip_witness :
    (∀ i : Fin 1, (0 : ℝ) ≤ 1) ∧
      complex_amplitudes (set_complex_amplitudes
          (fun i : Fin 1 => ((1 : ℝ) : ℂ) * Complex.exp (Complex.I * (0 : ℝ))) ⟨fun _ => 0, fun _ => 0⟩) =
        (fun i : Fin 1 => ((1 : ℝ) : ℂ) * Complex.exp (Complex.I * (0 : ℝ))) :=
  ⟨fun _ => zero_le_one,
    (complex_amplitudes_roundtrip (fun _ => 1) (fun _ => 0) ⟨fun _ => 0, fun _ => 0⟩
      (fun _ => zero_le_one)
      (fun _ => ⟨neg_neg_iff_pos.mpr Real.pi_pos, le_of_lt Real.pi_pos⟩)).1⟩

/-- C4: one call of the cached `spatial_derivatives` wrapper returns the
stored tensor, with the cache state unchanged, exactly when a tensor is
stored for at least the requested orders at shape-equal, numerically
close positions; in every other case it recomputes through the array and
stores positions, tensor and orders in the single cache slot. -/
theorem persistent_cache_behavior {P T : Type} (shape_eq close : P → P → Bool)
    (compute : P → ℕ → T) (st : PersistentFieldEvaluator P T) (positions : P) (orders : ℕ) :
    (∀ t lp, st.stored_derivatives = some t → st.last_positions = some lp →
      ((orders : Int) ≤ st.existing_orders ∧ shape_eq positions lp = true ∧
        close positions lp = true) →
      PersistentFieldEvaluator.call shape_eq close compute st positions orders = (t, st)) ∧
    ((∀ t lp, st.stored_derivatives = some t → st.last_positions = some lp →
        ¬((orders : Int) ≤ st.existing_orders ∧ shape_eq positions lp = true ∧
          close positions lp = true)) →
      PersistentFieldEvaluator.call shape_eq close compute st positions orders =
        (compute positions orders,
          ⟨some positions, some (compute positions orders), (orders : Int)⟩)) := by
  obtain ⟨lpos, sd, eo⟩ := st
  constructor
  · rintro t lp ht hlp hcond
    simp only at ht hlp
    subst ht
    subst hlp
    simp only [PersistentFieldEvaluator.call]
    rw [if_pos hcond]
  · intro hmiss
    match lpos, sd with
    | none, none => rfl
    | none, some t => rfl
    | some lp, none => rfl
    | some lp, some t =>
      simp only [PersistentFieldEvaluator.call]
      rw [if_neg (hmiss t lp rfl rfl)]

/-- C4 witness: starting from the freshly initialised cache, a call is a
miss that computes and stores. -/
theorem persistent_cache_behavior_witness :
    PersistentFieldEvaluator.call (fun _ _ => true) (fun _ _ => true) (fun p o => p + o)
      (PersistentFieldEvaluator.init ℕ ℕ) 5 3 = (8, ⟨some 5, some 8, 3⟩) :=
  (persistent_cache_behavior (fun _ _ => true) (fun _ _ => true) (fun p o => p + o)
    (PersistentFieldEvaluator.init ℕ ℕ) 5 3).2 (fun t lp ht _ _ => by cases ht)

/-- C3: the reflecting decorator's Green's function is the direct field
plus the reflection coefficient times the field of the mirror source
`s - 2 ((s·n) - d) n` with mirrored normal `m - 2 (m·n) n`; every entry
of its spatial derivatives decomposes the same way; and for a unit plane
normal the mirror map is the standard plane reflection: an involution
that fixes the points of the plane. -/
theorem reflecting_transducer_mirror (base : Vec3 → Vec3 → Vec3 → ℂ)
    (based : Vec3 → Vec3 → Vec3 → DKey → ℂ) (n : Vec3) (d : ℝ) (R : ℂ)
    (s m p : Vec3) (hn : dot3 n n = 1) :
    reflecting_greens_function base n d R s m p =
      base s m p + R * base (fun i => s i - 2 * (dot3 s n - d) * n i)
        (fun i => m i - 2 * dot3 m n * n i) p ∧
    (∀ key, reflecting_spatial_derivatives based n d R s m p key =
      based s m p key + R * based (fun i => s i - 2 * (dot3 s n - d) * n i)
        (fun i => m i - 2 * dot3 m n * n i) p key) ∧
    mirror_position n d (mirror_position n d s) = s ∧
    (dot3 s n = d → mirror_position n d s = s) := by
  have hpos : mirror_position n d s = fun i => s i - 2 * (dot3 s n - d) * n i := by
    funext i
    simp only [mirror_position]
    ring
  have hnor : mirror_normal n m = fun i => m i - 2 * dot3 m n * n i := by
    funext i
    simp only [mirror_normal]
    ring
  refine ⟨?_, ?_, ?_, ?_⟩
  · rw [reflecting_greens_function, hpos, hnor]
  · intro key
    rw [reflecting_spatial_derivatives, hpos, hnor]
  · have hS : dot3 (mirror_position n d s) n = dot3 s n - 2 * (dot3 s n - d) * dot3 n n :=
      dot3_mirror_expand n s (dot3 s n - d)
    rw [hn, mul_one] at hS
    funext i
    show mirror_position n d (mirror_position n d s) i = s i
    rw [mirror_position, hS]
    simp only [mirror_position]
    ring
  · intro hplane
    funext i
    rw [mirror_position, hplane]
    ring

/-- C3 witness: reflection in the plane `z = 0` with unit normal. -/
theorem reflecting_transducer_mirror_witness :
    dot3 wUnitZ wUnitZ = 1 ∧
      mirror_position wUnitZ 0 (mirror_position wUnitZ 0 wOrigin) = wOrigin := by
  have h1 : dot3 wUnitZ wUnitZ = 1 := by
    simp [dot3, wUnitZ, Fin.sum_univ_three]
  exact ⟨h1, (reflecting_transducer_mirror (fun _ _ _ => 0) (fun _ _ _ _ => 0) wUnitZ 0 0
    wOrigin wOrigin wOrigin h1).2.2.1⟩

/-- C6: `TransducerArray.spatial_derivatives` stacks the per-transducer
model entries with the derivative-key axis first and the transducer axis
second, the remaining index ranging over receiver points, and the result
does not depend on the stored amplitudes and phases (no weighting is
applied). -/
theorem array_spatial_derivatives_stacking {N : ℕ} {Q : Type}
    (model_sd : Vec3 → Vec3 → Vec3 → DKey → ℂ) (arr arr2 : TransducerArrayState N)
    (receiver_positions : Q → Vec3) (orders : ℕ)
    (hpos : arr2.transducer_positions = arr.transducer_positions)
    (hnorm : arr2.transducer_normals = arr.transducer_normals) :
    (∀ key : DKey, key.order ≤ orders → ∀ idx q,
      array_spatial_derivatives model_sd arr receiver_positions key idx q =
        model_sd (arr.transducer_positions idx) (arr.transducer_normals idx)
          (receiver_positions q) key) ∧
    array_spatial_derivatives model_sd arr2 receiver_positions =
      array_spatial_derivatives model_sd arr receiver_positions := by
  constructor
  · intro key _ idx q
    rfl
  · funext key idx q
    simp [array_spatial_derivatives, hpos, hnorm]

/-- C6 witness: a one-transducer array evaluated at one point, with the
amplitudes and phases varied. -/
theorem array_spatial_derivatives_stacking_witness :
    array_spatial_derivatives (fun _ _ _ _ => (1 : ℂ))
        (⟨fun _ => wOrigin, fun _ => wUnitZ, fun _ => 2, fun _ => 3⟩ : TransducerArrayState 1)
        (fun _ : Unit => wUnitZ) =
      array_spatial_derivatives (fun _ _ _ _ => (1 : ℂ))
        (⟨fun _ => wOrigin, fun _ => wUnitZ, fun _ => 1, fun _ => 0⟩ : TransducerArrayState 1)
        (fun _ : Unit => wUnitZ) :=
  (array_spatial_derivatives_stacking (fun _ _ _ _ => (1 : ℂ))
    ⟨fun _ => wOrigin, fun _ => wUnitZ, fun _ => 1, fun _ => 0⟩
    ⟨fun _ => wOrigin, fun _ => wUnitZ, fun _ => 2, fun _ => 3⟩
    (fun _ : Unit => wUnitZ) 3 rfl rfl).2

/-- C2: every entry of `TransducerModel.spatial_derivatives` is `p0`
times the Leibniz product-rule expansion of the spherical and
directivity derivative entries for that multi-index (in particular the
`xy` entry is the four-term cross expansion), and the order-0 entry
equals `greens_function` (`p0 * spherical_spreading * directivity`). -/
theorem spatial_derivatives_product_rule (p0 : ℝ) (sph dir : ℕ × ℕ × ℕ → ℂ)
    (k : ℝ) (direct : Vec3 → Vec3 → Vec3 → ℝ) (s n p : Vec3) :
    (∀ key : DKey,
      spatial_derivatives_combine p0 (fun kk => sph kk.count) (fun kk => dir kk.count) key =
        p0 * leibniz_expansion sph dir key.count) ∧
    spatial_derivatives_combine p0 (spherical_derivatives k s p)
        (fun key => ((directivity_derivatives direct k s n p key : ℝ) : ℂ)) .e =
      greens_function p0 k direct s n p := by
  constructor
  · intro key
    cases key <;>
      (simp [spatial_derivatives_combine, leibniz_expansion, DKey.count,
        Finset.sum_range_succ, Nat.choose]; push_cast; ring)
  · have hzero : (fun i : Fin 3 => (![0, 0, 0] : Vec3) i * (1 / k) + p i) = p := by
      funext i
      fin_cases i <;> simp
    simp only [spatial_derivatives_combine, spherical_derivatives, directivity_derivatives,
      fd_stencil, DKey.order, greens_function, spherical_spreading, List.map_cons,
      List.map_nil, List.sum_cons, List.sum_nil, hzero]
    push_cast
    ring

/-- C10: the base model's directivity is identically one, its
finite-difference directivity derivatives evaluate to one for the
order-0 key and to zero for every derivative key (each stencil's weights
sum to zero on a constant), and hence the combined spatial derivative
tensor reduces to `p0` times the spherical derivatives. -/
theorem base_model_point_source (p0 k : ℝ) (sph : DKey → ℂ) (s n p : Vec3) :
    (∀ s2 n2 p2 : Vec3, base_directivity s2 n2 p2 = 1) ∧
    (∀ key : DKey,
      directivity_derivatives base_directivity k s n p key = if key = .e then 1 else 0) ∧
    (∀ key : DKey,
      spatial_derivatives_combine p0 sph
          (fun key2 => ((directivity_derivatives base_directivity k s n p key2 : ℝ) : ℂ)) key =
        (p0 : ℂ) * sph key) := by
  have hd : ∀ key : DKey,
      directivity_derivatives base_directivity k s n p key = if key = .e then 1 else 0 := by
    intro key
    cases key <;>
      simp [directivity_derivatives, fd_stencil, base_directivity, DKey.order] <;> norm_num
  refine ⟨fun _ _ _ => rfl, hd, ?_⟩
  intro key
  cases key <;> simp [spatial_derivatives_combine, hd] <;> ring

/-- C5: for a receiver on the transducer axis (`sin θ = 0`) the circular
piston directivity takes the guarded limit value 1, and the guarded
Bessel ratios of `CircularRing.directivity_derivatives` take exactly the
limiting constants 0.5, 0.125 and 1/48, so no 0/0 expression is ever
selected. -/
theorem on_axis_directivity_limits (j0 j1 : ℝ → ℝ) (k a ka : ℝ) (s n p : Vec3)
    (h : sin_angle n s p = 0) :
    circular_piston_directivity j1 k a s n p = 1 ∧
    ring_J1_ratio j1 ka 0 = 0.5 ∧
    ring_J2_ratio j0 j1 ka 0 = 0.125 ∧
    ring_J3_ratio j0 j1 ka 0 = 1 / 48 := by
  refine ⟨?_, by simp [ring_J1_ratio], by simp [ring_J2_ratio], by simp [ring_J3_ratio]⟩
  simp [circular_piston_directivity, h]

/-- C5 witness: a receiver one unit along the axis of a transducer at the
origin pointing along the third coordinate. -/
theorem on_axis_directivity_limits_witness :
    sin_angle wUnitZ wOrigin wUnitZ = 0 ∧
      circular_piston_directivity (fun x => x) 1 1 wOrigin wUnitZ wUnitZ = 1 := by
  have hs : sin_angle wUnitZ wOrigin wUnitZ = 0 := by
    norm_num [sin_angle, wUnitZ, wOrigin, Fin.sum_univ_three]
  exact ⟨hs,
    (on_axis_directivity_limits (fun x => x) (fun x => x) 1 1 1 wOrigin wUnitZ wUnitZ hs).1⟩

/-! ### Calculus of the spherical wave -/

/-- Splitting the sum of squared offsets at coordinate `i` after an update. -/
theorem sum_update_sq (s p : Vec3) (i : Fin 3) (t : ℝ) :
    ∑ j, (Function.update p i t j - s j) ^ 2 =
      (t - s i) ^ 2 + ∑ j ∈ Finset.univ.erase i, (p j - s j) ^ 2 := by
  rw [← Finset.add_sum_erase Finset.univ (fun j => (Function.update p i t j - s j) ^ 2)
    (Finset.mem_univ i)]
  congr 1
  · rw [Function.update_same]
  · exact Finset.sum_congr rfl fun j hj => by
      rw [Function.update_noteq (Finset.ne_of_mem_erase hj)]

/-- The distance along an axis line, in one-variable form. -/
theorem rdist_update (s p : Vec3) (i : Fin 3) (t : ℝ) :
    rdist s (Function.update p i t) =
      Real.sqrt ((t - s i) ^ 2 + ∑ j ∈ Finset.univ.erase i, (p j - s j) ^ 2) := by
  rw [rdist, sum_update_sq]

/-- The derivative of the source-receiver distance along coordinate `i`
is `(p i - s i) / r`. -/
theorem hasDerivAt_rdist (s p : Vec3) (i : Fin 3) (hr : rdist s p ≠ 0) :
    HasDerivAt (fun t => rdist s (Function.update p i t))
      ((p i - s i) / rdist s p) (p i) := by
  have hsplit : ((p i - s i) ^ 2 + ∑ j ∈ Finset.univ.erase i, (p j - s j) ^ 2) =
      ∑ j, (p j - s j) ^ 2 := by
    have h := sum_update_sq s p i (p i)
    rw [Function.update_eq_self] at h
    exact h.symm
  have hfun : (fun t => rdist s (Function.update p i t)) =
      fun t => Real.sqrt ((t - s i) ^ 2 + ∑ j ∈ Finset.univ.erase i, (p j - s j) ^ 2) :=
    funext fun t => rdist_update s p i t
  have hfx : ((p i - s i) ^ 2 + ∑ j ∈ Finset.univ.erase i, (p j - s j) ^ 2) ≠ 0 := by
    rw [hsplit]
    intro h0
    exact hr (by rw [rdist, h0, Real.sqrt_zero])
  have hinner : HasDerivAt
      (fun t => (t - s i) ^ 2 + ∑ j ∈ Finset.univ.erase i, (p j - s j) ^ 2)
      (2 * (p i - s i) ^ 1 * 1) (p i) :=
    (((hasDerivAt_id (p i)).sub_const (s i)).pow 2).add_const _
  have hsq := hinner.sqrt hfx
  rw [hfun]
  convert hsq using 1
  rw [show Real.sqrt ((p i - s i) ^ 2 + ∑ j ∈ Finset.univ.erase i, (p j - s j) ^ 2) =
      rdist s p by rw [hsplit, rdist]]
  rw [pow_one]
  field_simp
  ring

/-- Derivative of a natural power of the real-to-complex coercion. -/
theorem hasDerivAt_ofReal_pow (n : ℕ) (r : ℝ) :
    HasDerivAt (fun y : ℝ => ((y : ℝ) : ℂ) ^ n) ((n : ℂ) * ((r : ℝ) : ℂ) ^ (n - 1)) r := by
  have h := (hasDerivAt_pow n r).ofReal_comp
  have hfun : (fun y : ℝ => ((y ^ n : ℝ) : ℂ)) = fun y : ℝ => ((y : ℝ) : ℂ) ^ n := by
    funext y
    push_cast
    ring
  rw [hfun] at h
  convert h using 1
  push_cast
  ring

/-- Derivative of the squared scaled coercion `y ↦ (k y)^2` into the
complex numbers. -/
theorem hasDerivAt_ofReal_kmul_sq (k r : ℝ) :
    HasDerivAt (fun y : ℝ => ((k * y : ℝ) : ℂ) ^ 2) (2 * ((k * r : ℝ) : ℂ) * k) r := by
  have hg : HasDerivAt (fun y : ℝ => (k * y) ^ 2) (2 * (k * r) ^ 1 * (k * 1)) r :=
    ((hasDerivAt_id r).const_mul k).pow 2
  have h := hg.ofReal_comp
  have hfun : (fun y : ℝ => (((k * y) ^ 2 : ℝ) : ℂ)) = fun y : ℝ => ((k * y : ℝ) : ℂ) ^ 2 := by
    funext y
    push_cast
    ring
  rw [hfun] at h
  convert h using 1
  push_cast
  ring

/-- Derivative of the spherical spreading with respect to the distance:
`d/dr (e^(i k r) / r) = r * radial1 k r`. -/
theorem hasDerivAt_radial0 (k : ℝ) {r : ℝ} (hr : r ≠ 0) :
    HasDerivAt (fun x : ℝ => radial0 k x) ((r : ℂ) * radial1 k r) r := by
  have hrc : ((r : ℝ) : ℂ) ≠ 0 := Complex.ofReal_ne_zero.mpr hr
  have hre : HasDerivAt (fun y : ℝ => ((y : ℝ) : ℂ)) 1 r := by
    simpa using (hasDerivAt_id r).ofReal_comp
  have hkx : HasDerivAt (fun y : ℝ => ((k * y : ℝ) : ℂ)) (k : ℂ) r := by
    simpa using ((hasDerivAt_id r).const_mul k).ofReal_comp
  have hexp := (hkx.const_mul Complex.I).cexp
  have hdiv := hexp.div hre hrc
  simp only [radial0]
  convert hdiv using 1
  rw [radial1]
  push_cast
  field_simp
  ring

/-- Derivative of the first radial coefficient with respect to the
distance: `d/dr radial1 = r * radial2`. -/
theorem hasDerivAt_radial1 (k : ℝ) {r : ℝ} (hr : r ≠ 0) :
    HasDerivAt (fun x : ℝ => radial1 k x) ((r : ℂ) * radial2 k r) r := by
  have hrc : ((r : ℝ) : ℂ) ≠ 0 := Complex.ofReal_ne_zero.mpr hr
  have hre : HasDerivAt (fun y : ℝ => ((y : ℝ) : ℂ)) 1 r := by
    simpa using (hasDerivAt_id r).ofReal_comp
  have hkx : HasDerivAt (fun y : ℝ => ((k * y : ℝ) : ℂ)) (k : ℂ) r := by
    simpa using ((hasDerivAt_id r).const_mul k).ofReal_comp
  have hexp := (hkx.const_mul Complex.I).cexp
  have hnum := ((hkx.const_mul Complex.I).sub_const 1).mul hexp
  have hp3 := hasDerivAt_ofReal_pow 3 r
  have hdiv := hnum.div hp3 (by simpa using pow_ne_zero 3 hrc)
  simp only [radial1]
  convert hdiv using 1
  rw [radial2]
  push_cast
  field_simp
  ring_nf
  simp only [Complex.I_sq]
  ring

/-- Derivative of the second radial coefficient with respect to the
distance: `d/dr radial2 = r * radial3`. -/
theorem hasDerivAt_radial2 (k : ℝ) {r : ℝ} (hr : r ≠ 0) :
    HasDerivAt (fun x : ℝ => radial2 k x) ((r : ℂ) * radial3 k r) r := by
  have hrc : ((r : ℝ) : ℂ) ≠ 0 := Complex.ofReal_ne_zero.mpr hr
  have hre : HasDerivAt (fun y : ℝ => ((y : ℝ) : ℂ)) 1 r := by
    simpa using (hasDerivAt_id r).ofReal_comp
  have hkx : HasDerivAt (fun y : ℝ => ((k * y : ℝ) : ℂ)) (k : ℂ) r := by
    simpa using ((hasDerivAt_id r).const_mul k).ofReal_comp
  have hexp := (hkx.const_mul Complex.I).cexp
  have hsq := hasDerivAt_ofReal_kmul_sq k r
  have h3 : HasDerivAt (fun _ : ℝ => (3 : ℂ)) 0 r := hasDerivAt_const r 3
  have hnum := ((h3.sub hsq).sub ((hkx.const_mul Complex.I).const_mul 3)).mul hexp
  have hp5 := hasDerivAt_ofReal_pow 5 r
  have hdiv := hnum.div hp5 (by simpa using pow_ne_zero 5 hrc)
  simp only [radial2]
  convert hdiv using 1
  rw [radial3]
  push_cast
  field_simp
  ring_nf
  simp only [Complex.I_sq]
  ring

/-- Chain rule for a radial function composed with the distance along an
axis line. -/
theorem hasDerivAt_radial_comp {F : ℝ → ℂ} {Fd : ℂ} (s p : Vec3) (i : Fin 3)
    (hF : HasDerivAt F Fd (rdist s p)) (hr : rdist s p ≠ 0) :
    HasDerivAt (fun t => F (rdist s (Function.update p i t)))
      (((p i - s i) / rdist s p : ℝ) • Fd) (p i) := by
  have h : HasDerivAt (F ∘ fun t => rdist s (Function.update p i t))
      (((p i - s i) / rdist s p : ℝ) • Fd) (p i) :=
    hF.scomp_of_eq (p i) (hasDerivAt_rdist s p i hr)
      (by rw [Function.update_eq_self])
  simpa [Function.comp] using h

/-- Derivative of an offset component along an axis line. -/
theorem hasDerivAt_diffc_update (s p : Vec3) (i j : Fin 3) :
    HasDerivAt (fun t => diffc s (Function.update p i t) j)
      (if i = j then 1 else 0) (p i) := by
  rcases eq_or_ne i j with h | h
  · subst h
    have hfun : (fun t => diffc s (Function.update p i t) i) =
        fun t : ℝ => ((t - s i : ℝ) : ℂ) := by
      funext t
      rw [diffc, Function.update_same]
    rw [hfun, if_pos rfl]
    simpa using ((hasDerivAt_id (p i)).sub_const (s i)).ofReal_comp
  · have hfun : (fun t => diffc s (Function.update p i t) j) =
        fun _ : ℝ => ((p j - s j : ℝ) : ℂ) := by
      funext t
      rw [diffc, Function.update_noteq (Ne.symm h)]
    rw [hfun, if_neg h]
    exact hasDerivAt_const _ _

/-- First derivative of the spherical wave along an axis line: the
closed form `sphF1`. -/
theorem hasDerivAt_sphG_line (k : ℝ) (s p : Vec3) (i : Fin 3) (hr : rdist s p ≠ 0) :
    HasDerivAt (fun t => sphG k s (Function.update p i t)) (sphF1 k s i p) (p i) := by
  have hrc : ((rdist s p : ℝ) : ℂ) ≠ 0 := Complex.ofReal_ne_zero.mpr hr
  have h := hasDerivAt_radial_comp s p i (hasDerivAt_radial0 k hr) hr
  simp only [sphG]
  convert h using 1
  rw [sphF1, Complex.real_smul, diffc]
  push_cast
  field_simp
  ring

/-- The first partial derivative of the spherical wave, in closed form,
wherever the receiver differs from the source. -/
theorem pd_sphG (k : ℝ) (s : Vec3) (j : Fin 3) (p : Vec3) (hr : rdist s p ≠ 0) :
    pd j (sphG k s) p = sphF1 k s j p := by
  simp only [pd]
  exact (hasDerivAt_sphG_line k s p j hr).deriv

/-- Near a point away from the source, the distance stays nonzero along
each axis line. -/
theorem eventually_rdist_ne (s p : Vec3) (i : Fin 3) (hr : rdist s p ≠ 0) :
    ∀ᶠ t in nhds (p i), rdist s (Function.update p i t) ≠ 0 := by
  have hfun : (fun t => rdist s (Function.update p i t)) =
      fun t => Real.sqrt ((t - s i) ^ 2 + ∑ j ∈ Finset.univ.erase i, (p j - s j) ^ 2) :=
    funext fun t => rdist_update s p i t
  have hcont : ContinuousAt (fun t => rdist s (Function.update p i t)) (p i) := by
    rw [hfun]
    exact (Real.continuous_sqrt.comp (by continuity)).continuousAt
  have h0 : rdist s (Function.update p i (p i)) ≠ 0 := by
    rw [Function.update_eq_self]
    exact hr
  exact hcont.eventually_ne h0

/-- Two fields that agree away from the source have the same partial
derivatives away from the source. -/
theorem pd_congr_near (i : Fin 3) {f g : Vec3 → ℂ} (s : Vec3) (p : Vec3)
    (hr : rdist s p ≠ 0) (h : ∀ q : Vec3, rdist s q ≠ 0 → f q = g q) :
    pd i f p = pd i g p := by
  simp only [pd]
  apply Filter.EventuallyEq.deriv_eq
  exact (eventually_rdist_ne s p i hr).mono fun t ht => h _ ht

/-- Derivative of the first-order closed form along an axis line: the
closed form `sphF2` of the second partials. -/
theorem hasDerivAt_sphF1_line (k : ℝ) (s p : Vec3) (i j : Fin 3) (hr : rdist s p ≠ 0) :
    HasDerivAt (fun t => sphF1 k s j (Function.update p i t)) (sphF2 k s i j p) (p i) := by
  have hrc : ((rdist s p : ℝ) : ℂ) ≠ 0 := Complex.ofReal_ne_zero.mpr hr
  have h1 := hasDerivAt_diffc_update s p i j
  have h2 := hasDerivAt_radial_comp s p i (hasDerivAt_radial1 k hr) hr
  have h := h1.mul h2
  convert h using 1
  simp only [sphF2, Function.update_eq_self, Complex.real_smul, diffc]
  push_cast
  rcases eq_or_ne i j with hij | hij
  · subst hij
    simp only [if_pos rfl]
    field_simp
    ring
  · simp only [if_neg hij]
    field_simp
    ring

/-- The second partial derivatives of the spherical wave, in closed
form, wherever the receiver differs from the source. -/
theorem pd2_sphG (k : ℝ) (s : Vec3) (i j : Fin 3) (p : Vec3) (hr : rdist s p ≠ 0) :
    pd i (pd j (sphG k s)) p = sphF2 k s i j p := by
  have hcong := pd_congr_near i s p hr (fun q hq => pd_sphG k s j q hq)
  rw [hcong]
  simp only [pd]
  exact (hasDerivAt_sphF1_line k s p i j hr).deriv

/-- Derivative of the second-order closed form along an axis line: the
closed form `sphF3` of the third partials. -/
theorem hasDerivAt_sphF2_line (k : ℝ) (s p : Vec3) (i j l : Fin 3) (hr : rdist s p ≠ 0) :
    HasDerivAt (fun t => sphF2 k s j l (Function.update p i t)) (sphF3 k s i j l p) (p i) := by
  have hrc : ((rdist s p : ℝ) : ℂ) ≠ 0 := Complex.ofReal_ne_zero.mpr hr
  have hdj := hasDerivAt_diffc_update s p i j
  have hdl := hasDerivAt_diffc_update s p i l
  have hr2 := hasDerivAt_radial_comp s p i (hasDerivAt_radial2 k hr) hr
  have hr1 := hasDerivAt_radial_comp s p i (hasDerivAt_radial1 k hr) hr
  have hA := (hdj.mul hdl).mul hr2
  rcases eq_or_ne j l with hjl | hjl
  · subst hjl
    have h := hA.add hr1
    have hfun : (fun t => sphF2 k s j j (Function.update p i t)) =
        fun t => diffc s (Function.update p i t) j * diffc s (Function.update p i t) j *
            radial2 k (rdist s (Function.update p i t)) +
          radial1 k (rdist s (Function.update p i t)) := by
      funext t
      simp [sphF2]
    rw [hfun]
    convert h using 1
    simp only [sphF3, Function.update_eq_self, Complex.real_smul, diffc, if_pos rfl]
    push_cast
    rcases eq_or_ne i j with hij | hij
    · subst hij
      simp only [if_pos rfl]
      field_simp
      ring
    · simp only [if_neg hij]
      field_simp
      ring
  · have hfun : (fun t => sphF2 k s j l (Function.update p i t)) =
        fun t => diffc s (Function.update p i t) j * diffc s (Function.update p i t) l *
            radial2 k (rdist s (Function.update p i t)) := by
      funext t
      simp [sphF2, hjl]
    rw [hfun]
    convert hA using 1
    simp only [sphF3, Function.update_eq_self, Complex.real_smul, diffc, if_neg hjl]
    push_cast
    rcases eq_or_ne i j with hij | hij
    · rcases eq_or_ne i l with hil | hil
      · exact absurd (hij.symm.trans hil) hjl
      · subst hij
        simp only [if_pos rfl, if_neg hil]
        field_simp
        ring
    · rcases eq_or_ne i l with hil | hil
      · subst hil
        simp only [if_pos rfl, if_neg hij]
        field_simp
        ring
      · simp only [if_neg hij, if_neg hil]
        field_simp
        ring

/-- The third partial derivatives of the spherical wave, in closed form,
wherever the receiver differs from the source. -/
theorem pd3_sphG (k : ℝ) (s : Vec3) (i j l : Fin 3) (p : Vec3) (hr : rdist s p ≠ 0) :
    pd i (pd j (pd l (sphG k s))) p = sphF3 k s i j l p := by
  have hcong := pd_congr_near i s p hr (fun q hq => pd2_sphG k s j l q hq)
  rw [hcong]
  simp only [pd]
  exact (hasDerivAt_sphF2_line k s p i j l hr).deriv

/-- C1: for positive wavenumber and a receiver away from the source,
`spherical_derivatives` returns the claimed closed forms — order 0 is
`e^(i k r)/r`, first order is `(i k r - 1) e^(i k r)/r^3` times the
offset component, diagonal second order is
`(3 - k^2 r^2 - 3 i k r) e^(i k r)/r^5` times the squared component plus
the first-order coefficient, mixed second order is the same coefficient
times the product of the two components — and every returned entry up to
order 3 equals the true iterated partial derivative of `e^(i k r)/r` for
its multi-index. -/
theorem spherical_derivatives_closed_form (k : ℝ) (s p : Vec3)
    (hk : 0 < k) (hr : 0 < rdist s p) :
    spherical_derivatives k s p .e = radial0 k (rdist s p) ∧
    spherical_derivatives k s p .x = diffc s p 0 * radial1 k (rdist s p) ∧
    spherical_derivatives k s p .y = diffc s p 1 * radial1 k (rdist s p) ∧
    spherical_derivatives k s p .z = diffc s p 2 * radial1 k (rdist s p) ∧
    spherical_derivatives k s p .xx =
      diffc s p 0 ^ 2 * radial2 k (rdist s p) + radial1 k (rdist s p) ∧
    spherical_derivatives k s p .yy =
      diffc s p 1 ^ 2 * radial2 k (rdist s p) + radial1 k (rdist s p) ∧
    spherical_derivatives k s p .zz =
      diffc s p 2 ^ 2 * radial2 k (rdist s p) + radial1 k (rdist s p) ∧
    spherical_derivatives k s p .xy = diffc s p 0 * diffc s p 1 * radial2 k (rdist s p) ∧
    spherical_derivatives k s p .xz = diffc s p 0 * diffc s p 2 * radial2 k (rdist s p) ∧
    spherical_derivatives k s p .yz = diffc s p 1 * diffc s p 2 * radial2 k (rdist s p) ∧
    ∀ key : DKey, spherical_derivatives k s p key = pdIter key.idxList (sphG k s) p := by
  have hr0 : rdist s p ≠ 0 := ne_of_gt hr
  have h1 : ∀ j : Fin 3, pd j (sphG k s) p = sphF1 k s j p :=
    fun j => pd_sphG k s j p hr0
  have h2 : ∀ i j : Fin 3, pd i (pd j (sphG k s)) p = sphF2 k s i j p :=
    fun i j => pd2_sphG k s i j p hr0
  have h3 : ∀ i j l : Fin 3, pd i (pd j (pd l (sphG k s))) p = sphF3 k s i j l p :=
    fun i j l => pd3_sphG k s i j l p hr0
  refine ⟨rfl, rfl, rfl, rfl, rfl, rfl, rfl, rfl, rfl, rfl, ?_⟩
  intro key
  cases key <;>
    simp only [DKey.idxList, pdIter, h1, h2, h3, sphF1, sphF2, sphF3, sphG] <;>
    simp [spherical_derivatives, radial0, radial1, radial2, radial3, diffc] <;>
    first
      | ring1
      | exact Or.inl (by ring1)

/-- C1 witness: the unit wavenumber with the receiver one unit from the
source, checked on the mixed second-order entry. -/
theorem spherical_derivatives_closed_form_witness :
    (0 : ℝ) < 1 ∧ 0 < rdist wOrigin wUnitZ ∧
      spherical_derivatives 1 wOrigin wUnitZ .xy =
        pdIter DKey.xy.idxList (sphG 1 wOrigin) wUnitZ := by
  have hr : 0 < rdist wOrigin wUnitZ := by
    norm_num [rdist, wOrigin, wUnitZ, Fin.sum_univ_three, Real.sqrt_one]
  exact ⟨one_pos, hr,
    (spherical_derivatives_closed_form 1 wOrigin wUnitZ one_pos
      hr).2.2.2.2.2.2.2.2.2.2 DKey.xy⟩

end Levitate
